import Mathlib

set_option maxRecDepth 2000

/-!
Shallow embedding of the rusty_money monetary core (src/money.rs and
src/exchange.rs).  Strings are modelled as lists of characters.  The external
Decimal primitive is modelled as the rational numbers (the spec treats it as
an exact, unbounded base-10 number).  A Rust `panic!` (a fatal abort) is
modelled by an explicit result constructor (`aborted` / `none`), never by a
recoverable error value.
-/

namespace RustyMoney

/-- Modelled from the spec: the locale format table (the repository's
`locale.rs` is not under src/).  A locale tag resolves to a digit-grouping
separator, an integer/fraction separator and a grouping pattern (expected
group sizes, nearest the decimal point first); a currency's locale is
represented directly by its resolved format. -/
structure LocalFormat where
  digitSeparator : Char
  exponentSeparator : Char
  digitSeparatorPattern : List Nat
deriving DecidableEq

/-- Modelled from the spec: the currency capability (the repository's
`currency.rs` is not under src/): ISO-like code, display symbol, symbol
position, minor-unit exponent and locale.  The textual rendering used by
`Exchange::generate_key` is the ISO-like code. -/
structure Currency where
  code : List Char
  symbol : List Char
  symbolFirst : Bool
  exponent : Nat
  locale : LocalFormat
deriving DecidableEq

/-- Modelled from the spec: the external Decimal primitive, an exact base-10
number (the spec's "unbounded Decimal path"); embedded as the rationals. -/
abbrev Decimal := ℚ

/-- Decimal floor toward negative infinity, as `rust_decimal`'s `floor`. -/
def decimalFloor (q : Decimal) : Decimal := (Rat.floor q : ℚ)

/-- Recoverable error taxonomy (the repository's error type is not under
src/; modelled from the spec §7, with the integer-parse failure of a
fractional part converted to `invalidAmount`, as the src tests require in
`money_from_string_parse_errs`). -/
inductive MoneyError where
  | invalidAmount
  | invalidRatio
  | invalidCurrency
deriving DecidableEq

/-- An exact decimal amount paired with a currency (src/money.rs `Money`). -/
structure Money where
  amount : Decimal
  currency : Currency
deriving DecidableEq

/-- src/money.rs `Money::from_decimal`. -/
def fromDecimal (amount : Decimal) (currency : Currency) : Money :=
  ⟨amount, currency⟩

/-- src/money.rs `Money::from_minor`: the integer is an amount of minor
units, scaled by `10 ^ (-exponent)` (`Decimal::from_i128_with_scale`). -/
def fromMinor (amount : ℤ) (currency : Currency) : Money :=
  ⟨(amount : ℚ) / 10 ^ currency.exponent, currency⟩

/-- src/money.rs `Money::from_major`: the integer is whole units
(`Decimal::new(amount, 0)`). -/
def fromMajor (amount : ℤ) (currency : Currency) : Money :=
  ⟨(amount : ℚ), currency⟩

/-- src/money.rs `impl Add for Money`; `none` models the `panic!` on a
currency mismatch. -/
def addMoney (m other : Money) : Option Money :=
  if m.currency ≠ other.currency then none
  else some (fromDecimal (m.amount + other.amount) m.currency)

/-- src/money.rs `impl AddAssign for Money` (the assigned value). -/
def addAssignMoney (m other : Money) : Option Money :=
  if m.currency ≠ other.currency then none
  else some ⟨m.amount + other.amount, m.currency⟩

/-- src/money.rs `impl Sub for Money`. -/
def subMoney (m other : Money) : Option Money :=
  if m.currency ≠ other.currency then none
  else some (fromDecimal (m.amount - other.amount) m.currency)

/-- src/money.rs `impl SubAssign for Money` (the assigned value). -/
def subAssignMoney (m other : Money) : Option Money :=
  if m.currency ≠ other.currency then none
  else some ⟨m.amount - other.amount, m.currency⟩

/-- Three-way comparison of Decimal amounts, as `Decimal::cmp`. -/
def ratCompare (a b : ℚ) : Ordering :=
  if a < b then .lt else if a = b then .eq else .gt

/-- src/money.rs `impl Ord for Money`; `none` models the `panic!` on a
currency mismatch (`PartialOrd` delegates to this). -/
def cmpMoney (m other : Money) : Option Ordering :=
  if m.currency ≠ other.currency then none
  else some (ratCompare m.amount other.amount)

/-- src/money.rs `derive(PartialEq)` on Money: field-wise equality of amount
and currency, total on all pairs. -/
def moneyEq (m other : Money) : Bool :=
  decide (m.amount = other.amount) && decide (m.currency = other.currency)

/-- The EnUs locale format used by the src test currencies. -/
def enUs : LocalFormat := ⟨',', '.', [3, 3, 3]⟩

/-- The EnEu locale format used by the src test currencies. -/
def enEu : LocalFormat := ⟨'.', ',', [3, 3, 3]⟩

/-- The USD test currency defined in src/money.rs tests. -/
def usd : Currency := ⟨['U', 'S', 'D'], ['$'], true, 2, enUs⟩

/-- The GBP test currency defined in src/money.rs tests. -/
def gbp : Currency := ⟨['G', 'B', 'P'], ['£'], true, 2, enUs⟩

/-- The EUR test currency defined in src/money.rs tests. -/
def eur : Currency := ⟨['E', 'U', 'R'], ['€'], true, 2, enEu⟩

/-- The ETH test currency (exponent 18) defined in src/money.rs tests. -/
def eth : Currency := ⟨['E', 'T', 'H'], ['E', 'T', 'H'], false, 18, enUs⟩

/-- Result of `Money::allocate`: shares, a recoverable error, or an abort
(`panic!` or an out-of-bounds index in the distribution loop). -/
inductive AllocResult where
  | ok (shares : List Money)
  | err (e : MoneyError)
  | aborted
deriving DecidableEq

/-- How the share-computing loop of `Money::allocate` stops early: a
non-positive ratio (recoverable `InvalidRatio`), or the `rust_decimal`
division-by-zero abort when the ratio total is zero. -/
inductive ShareFail where
  | ratioNonPos
  | divByZero
deriving DecidableEq

/-- The `for ratio in ratios` loop of src/money.rs `Money::allocate`
(lines 288-297): rejects the first non-positive ratio, aborts on division by
a zero ratio total, and otherwise pushes
`floor(amount * ratio / ratio_total)` for each ratio in order. -/
def sharesLoop (m : Money) (ratioTotal : Decimal) :
    List Decimal → Except ShareFail (List Money)
  | [] => .ok []
  | ratio :: rest =>
    if ratio ≤ 0 then .error .ratioNonPos
    else if ratioTotal = 0 then .error .divByZero
    else
      match sharesLoop m ratioTotal rest with
      | .error e => .error e
      | .ok allocations =>
          .ok (fromDecimal (decimalFloor (m.amount * ratio / ratioTotal))
                m.currency :: allocations)

/-- The remainder-distribution `while` loop of src/money.rs `Money::allocate`
(lines 307-312): adds `Decimal::ONE` to each of the first `n` shares in
order; `none` models the index-out-of-bounds abort when `n` exceeds the
number of shares. -/
def distribute : List Money → Nat → Option (List Money)
  | shares, 0 => some shares
  | [], _ + 1 => none
  | share :: rest, n + 1 =>
    match distribute rest n with
    | some shares => some (⟨share.amount + 1, share.currency⟩ :: shares)
    | none => none

/-- src/money.rs `Money::allocate`.  Ratios are converted to Decimal exactly
(`Decimal::from_str(&x.to_string())` on an i32 never fails), the shares loop
runs, the remainder `amount - Σ shares` is checked non-negative and integral
(each violation is a `panic!`, modelled `aborted`), and the remainder is
distributed one whole unit at a time. -/
def allocate (m : Money) (ratios : List Int) : AllocResult :=
  if ratios.isEmpty then .err .invalidRatio
  else
    let ratiosD : List Decimal := ratios.map (fun x : ℤ => (x : ℚ))
    let ratioTotal : Decimal := ratiosD.foldl (· + ·) 0
    match sharesLoop m ratioTotal ratiosD with
    | .error .ratioNonPos => .err .invalidRatio
    | .error .divByZero => .aborted
    | .ok allocations =>
      let remainder : Decimal :=
        m.amount - (allocations.map Money.amount).foldl (· + ·) 0
      if remainder < 0 then .aborted
      else if remainder - decimalFloor remainder ≠ 0 then .aborted
      else
        match distribute allocations (Rat.floor remainder).toNat with
        | some final => .ok final
        | none => .aborted

/-- src/money.rs `Money::allocate_to`: allocate with `number` ratios of 1
(an empty ratio vector when `number ≤ 0`). -/
def allocateTo (m : Money) (number : Int) : AllocResult :=
  allocate m (List.replicate number.toNat 1)

/-- src/exchange.rs `ExchangeRate`: source currency, destination currency and
a Decimal multiplier (`from` and `to` are Lean keywords, hence `fromCur` /
`toCur`). -/
structure ExchangeRate where
  fromCur : Currency
  toCur : Currency
  rate : Decimal
deriving DecidableEq

/-- src/exchange.rs `ExchangeRate::convert`. -/
def convert (r : ExchangeRate) (amount : Money) : Except MoneyError Money :=
  if amount.currency ≠ r.fromCur then .error .invalidCurrency
  else .ok (fromDecimal (amount.amount * r.rate) r.toCur)

/-- src/exchange.rs `Exchange::generate_key`:
`from.to_string() + "-" + &to.to_string()` where a currency renders as its
code. -/
def generateKey (a b : Currency) : List Char :=
  a.code ++ '-' :: b.code

/-- Insertion into the key-value map, with `HashMap::insert` semantics:
overwrites the entry with an equal key, otherwise appends. -/
def mapInsert (k : List Char) (v : ExchangeRate) :
    List (List Char × ExchangeRate) → List (List Char × ExchangeRate)
  | [] => [(k, v)]
  | (k2, v2) :: rest =>
    if k2 = k then (k, v) :: rest else (k2, v2) :: mapInsert k v rest

/-- Lookup in the key-value map, with `HashMap::get` semantics. -/
def mapGet (k : List Char) :
    List (List Char × ExchangeRate) → Option ExchangeRate
  | [] => none
  | (k2, v) :: rest => if k2 = k then some v else mapGet k rest

/-- src/exchange.rs `Exchange`: its `HashMap<String, ExchangeRate>` is
modelled as an association list with insert-overwrites semantics. -/
structure Exchange where
  map : List (List Char × ExchangeRate)
deriving DecidableEq

/-- src/exchange.rs `Exchange::new`. -/
def exchangeNew : Exchange := ⟨[]⟩

/-- src/exchange.rs `Exchange::set_rate`. -/
def setRate (ex : Exchange) (r : ExchangeRate) : Exchange :=
  ⟨mapInsert (generateKey r.fromCur r.toCur) r ex.map⟩

/-- src/exchange.rs `Exchange::get_rate`. -/
def getRate (ex : Exchange) (a b : Currency) : Option ExchangeRate :=
  mapGet (generateKey a b) ex.map

/-- Rust `str::split` on a single separator character: always yields at
least one (possibly empty) part. -/
def splitChar (sep : Char) : List Char → List (List Char)
  | [] => [[]]
  | c :: rest =>
    if c = sep then [] :: splitChar sep rest
    else
      match splitChar sep rest with
      | g :: gs => (c :: g) :: gs
      | [] => [[c]]

/-- The grouping sanity-check loop of src/money.rs `Money::from_str`
(lines 188-196): walks the locale's grouping pattern, popping groups from
the right; stops once at most one group remains; a popped group of the wrong
size fails. -/
def checkGroups : List Nat → List (List Char) → Bool
  | [], _ => true
  | n :: rest, gs =>
    if gs.length ≤ 1 then true
    else if (gs.getLastD []).length ≠ n then false
    else checkGroups rest gs.dropLast

/-- Value of a (digit-only) character list read in base 10. -/
def digitsToNat (s : List Char) : Nat :=
  s.foldl (fun acc c => 10 * acc + (c.toNat - 48)) 0

/-- Digit run of Rust `i32::from_str` after the optional sign: non-empty,
decimal digits only, and the signed value must fit in 32 bits. -/
def parseIntDigits (neg : Bool) (t : List Char) : Option Int :=
  if t ≠ [] ∧ t.all Char.isDigit then
    let v : Int := if neg then -(digitsToNat t : Int) else (digitsToNat t : Int)
    if -(2 ^ 31) ≤ v ∧ v < 2 ^ 31 then some v else none
  else none

/-- Rust `i32::from_str`, used by src/money.rs `Money::from_str` to validate
the fractional part. -/
def parseI32 : List Char → Option Int
  | '+' :: rest => parseIntDigits false rest
  | '-' :: rest => parseIntDigits true rest
  | s => parseIntDigits false s

/-- Unsigned body of the external Decimal primitive's string parser: decimal
digits with at most one decimal point and at least one digit. -/
def parseUnsignedDecimal (s : List Char) : Option ℚ :=
  match splitChar '.' s with
  | [ip] =>
    if ip ≠ [] ∧ ip.all Char.isDigit then some (digitsToNat ip : ℚ) else none
  | [ip, fp] =>
    if ip.all Char.isDigit ∧ fp.all Char.isDigit ∧ (ip ≠ [] ∨ fp ≠ []) then
      some ((digitsToNat ip : ℚ) + (digitsToNat fp : ℚ) / 10 ^ fp.length)
    else none
  | _ => none

/-- Modelled from the spec: `Decimal::from_str` of the external Decimal
primitive — an optional leading sign, then digits with at most one decimal
point and at least one digit; anything else fails. -/
def decimalFromStr : List Char → Option ℚ
  | '+' :: rest => parseUnsignedDecimal rest
  | '-' :: rest => (parseUnsignedDecimal rest).map (fun q => -q)
  | s => parseUnsignedDecimal s

/-- Result of `Money::from_str`: a Money, a recoverable error, or an abort
(the `.unwrap()` on the final Decimal parse). -/
inductive ParseResult where
  | ok (m : Money)
  | err (e : MoneyError)
  | aborted
deriving DecidableEq

/-- src/money.rs `Money::from_str` (lines 180-212): split on the locale's
exponent separator, split the integer part on the digit separator and
concatenate the groups, sanity-check the grouping, synthesize or validate
(via `i32::from_str`) the fractional part, and finally parse the assembled
"integer.fraction" string with `Decimal::from_str(..).unwrap()` — whose
failure is the abort `aborted`. -/
def fromStr (amount : List Char) (currency : Currency) : ParseResult :=
  let format := currency.locale
  let amountParts := splitChar format.exponentSeparator amount
  let splitDecimal := splitChar format.digitSeparator (amountParts.headD [])
  let parsedDecimal := splitDecimal.flatten
  if ¬ checkGroups format.digitSeparatorPattern splitDecimal then
    .err .invalidAmount
  else if amountParts.length = 1 then
    match decimalFromStr
        (parsedDecimal ++ '.' :: List.replicate currency.exponent '0') with
    | some d => .ok (fromDecimal d currency)
    | none => .aborted
  else if amountParts.length = 2 then
    match parseI32 (amountParts.getD 1 []) with
    | none => .err .invalidAmount
    | some _ =>
      match decimalFromStr (parsedDecimal ++ '.' :: amountParts.getD 1 []) with
      | some d => .ok (fromDecimal d currency)
      | none => .aborted
  else .err .invalidAmount

/-! ## Claims -/

/-- C2: for every pair of Money values with unequal currencies, add,
subtract, add-assign, subtract-assign and ordering comparison all abort
(return no value); with equal currencies, add and subtract return a new
Money whose amount is the exact sum respectively difference and whose
currency is unchanged. -/
theorem money_arith_currency_invariant (m other : Money) :
    (m.currency ≠ other.currency →
      addMoney m other = none ∧ subMoney m other = none ∧
      addAssignMoney m other = none ∧ subAssignMoney m other = none ∧
      cmpMoney m other = none)
    ∧ (m.currency = other.currency →
      addMoney m other = some (fromDecimal (m.amount + other.amount) m.currency) ∧
      subMoney m other = some (fromDecimal (m.amount - other.amount) m.currency)) := by
  constructor
  · intro h
    simp [addMoney, subMoney, addAssignMoney, subAssignMoney, cmpMoney, h]
  · intro h
    simp [addMoney, subMoney, h]

/-- Witness for C2 at concrete inputs: USD vs GBP aborts everywhere, USD
vs USD adds and subtracts exactly. -/
theorem money_arith_currency_invariant_witness :
    (addMoney (fromDecimal 1 usd) (fromDecimal 1 gbp) = none
      ∧ subMoney (fromDecimal 1 usd) (fromDecimal 1 gbp) = none
      ∧ addAssignMoney (fromDecimal 1 usd) (fromDecimal 1 gbp) = none
      ∧ subAssignMoney (fromDecimal 1 usd) (fromDecimal 1 gbp) = none
      ∧ cmpMoney (fromDecimal 1 usd) (fromDecimal 1 gbp) = none)
    ∧ (addMoney (fromDecimal 1 usd) (fromDecimal 2 usd)
        = some (fromDecimal
            ((fromDecimal 1 usd).amount + (fromDecimal 2 usd).amount)
            (fromDecimal 1 usd).currency)
      ∧ subMoney (fromDecimal 1 usd) (fromDecimal 2 usd)
        = some (fromDecimal
            ((fromDecimal 1 usd).amount - (fromDecimal 2 usd).amount)
            (fromDecimal 1 usd).currency)) :=
  ⟨(money_arith_currency_invariant (fromDecimal 1 usd) (fromDecimal 1 gbp)).1
      (by decide),
   (money_arith_currency_invariant (fromDecimal 1 usd) (fromDecimal 2 usd)).2
      rfl⟩

/-- C6: `ExchangeRate::convert` fails with `InvalidCurrency` exactly when
the money's currency differs from the rate's source currency; on a match it
returns the amount multiplied by the rate, denominated in the destination
currency, with no rounding. -/
theorem convert_spec (r : ExchangeRate) (m : Money) :
    (convert r m = .error .invalidCurrency ↔ m.currency ≠ r.fromCur)
    ∧ (m.currency = r.fromCur →
        convert r m = .ok (fromDecimal (m.amount * r.rate) r.toCur)) := by
  by_cases hc : m.currency = r.fromCur <;> simp [convert, hc]

/-- Witness for C6: converting 10 USD at rate USD→EUR returns the scaled
amount in EUR. -/
theorem convert_spec_witness :
    convert ⟨usd, eur, 3 / 2⟩ (fromDecimal 10 usd)
      = .ok (fromDecimal ((fromDecimal 10 usd).amount * (3 / 2 : ℚ)) eur) :=
  (convert_spec ⟨usd, eur, 3 / 2⟩ (fromDecimal 10 usd)).2 rfl

/-- C8: for every currency and integer in the constructible (i64) range,
`from_major n` equals `from_minor (n * 10 ^ exponent)`. -/
theorem from_major_from_minor (n : ℤ) (c : Currency)
    (_h1 : -(2 ^ 63) ≤ n) (_h2 : n < 2 ^ 63) :
    fromMajor n c = fromMinor (n * 10 ^ c.exponent) c := by
  unfold fromMajor fromMinor
  congr 1
  push_cast
  rw [mul_div_assoc, div_self (by positivity), mul_one]

/-- Witness for C8: `from_major(10, USD) == from_minor(1000, USD)`. -/
theorem from_major_from_minor_witness :
    fromMajor 10 usd = fromMinor 1000 usd := by
  have h := from_major_from_minor 10 usd (by decide) (by decide)
  norm_num [usd] at h
  exact h

/-- C10: Money equality is total (a Bool for every pair): it holds exactly
when both the currencies and the amounts are equal, and on a currency
mismatch it returns `false` while ordering comparison aborts. -/
theorem money_partial_eq_spec (m other : Money) :
    (moneyEq m other = true ↔ m.currency = other.currency ∧ m.amount = other.amount)
    ∧ (m.currency ≠ other.currency →
        moneyEq m other = false ∧ cmpMoney m other = none) := by
  constructor
  · simp [moneyEq, and_comm]
  · intro h
    exact ⟨by simp [moneyEq, h], by simp [cmpMoney, h]⟩

/-- Witness for C10: equal amounts in USD and GBP compare unequal but do
not abort, while ordering comparison aborts. -/
theorem money_partial_eq_spec_witness :
    moneyEq (fromDecimal 1 usd) (fromDecimal 1 gbp) = false
    ∧ cmpMoney (fromDecimal 1 usd) (fromDecimal 1 gbp) = none :=
  (money_partial_eq_spec (fromDecimal 1 usd) (fromDecimal 1 gbp)).2 (by decide)

theorem mapGet_mapInsert_self (k : List Char) (v : ExchangeRate) :
    ∀ l : List (List Char × ExchangeRate), mapGet k (mapInsert k v l) = some v := by
  intro l
  induction l with
  | nil => simp [mapInsert, mapGet]
  | cons p rest ih =>
    obtain ⟨k2, v2⟩ := p
    by_cases h : k2 = k <;> simp [mapInsert, mapGet, h, ih]

theorem mapGet_mapInsert_ne (k q : List Char) (v : ExchangeRate) (hne : q ≠ k) :
    ∀ l : List (List Char × ExchangeRate), mapGet q (mapInsert k v l) = mapGet q l := by
  intro l
  induction l with
  | nil => simp [mapInsert, mapGet, Ne.symm hne]
  | cons p rest ih =>
    obtain ⟨k2, v2⟩ := p
    by_cases h : k2 = k
    · subst h
      simp [mapInsert, mapGet, Ne.symm hne]
    · simp [mapInsert, mapGet, h, ih]

theorem takeWhile_until_dash (s t : List Char) (hs : '-' ∉ s) :
    (s ++ '-' :: t).takeWhile (fun c => c != '-') = s := by
  induction s with
  | nil => simp [List.takeWhile_cons]
  | cons c rest ih =>
    have hc : c ≠ '-' := fun h => hs (h ▸ List.mem_cons_self c rest)
    have hrest : '-' ∉ rest := fun h => hs (List.mem_cons_of_mem c h)
    simp [List.takeWhile_cons, hc, ih hrest]

theorem generateKey_swap_ne (a b : Currency) (ha : '-' ∉ a.code)
    (hb : '-' ∉ b.code) (hab : a.code ≠ b.code) :
    generateKey b a ≠ generateKey a b := by
  intro h
  have h2 := congrArg (List.takeWhile (fun c => c != '-')) h
  rw [generateKey, generateKey, takeWhile_until_dash _ _ hb,
    takeWhile_until_dash _ _ ha] at h2
  exact hab h2.symm

/-- C7: storing a rate and querying the same ordered pair returns exactly
that rate, overwriting whatever the store previously held for the pair; a
pair for which no rate was ever set (a fold of `set_rate`s over the empty
store, none touching the pair's key) queries to `none`; and — for currencies
with distinct, dash-free codes — setting a rate for (A, B) never changes
what the reversed pair (B, A) returns. -/
theorem exchange_set_get_spec :
    (∀ (ex : Exchange) (r : ExchangeRate),
      getRate (setRate ex r) r.fromCur r.toCur = some r)
    ∧ (∀ (rs : List ExchangeRate) (a b : Currency),
      (∀ r ∈ rs, generateKey r.fromCur r.toCur ≠ generateKey a b) →
      getRate (rs.foldl setRate exchangeNew) a b = none)
    ∧ (∀ (ex : Exchange) (r : ExchangeRate),
      '-' ∉ r.fromCur.code → '-' ∉ r.toCur.code →
      r.fromCur.code ≠ r.toCur.code →
      getRate (setRate ex r) r.toCur r.fromCur = getRate ex r.toCur r.fromCur) := by
  refine ⟨fun ex r => mapGet_mapInsert_self _ _ _, ?_, ?_⟩
  · have step : ∀ (rs : List ExchangeRate) (ex : Exchange) (a b : Currency),
        (∀ r ∈ rs, generateKey r.fromCur r.toCur ≠ generateKey a b) →
        getRate ex a b = none →
        getRate (rs.foldl setRate ex) a b = none := by
      intro rs
      induction rs with
      | nil => intro ex a b _ hbase; simpa using hbase
      | cons r rest ih =>
        intro ex a b hk hbase
        simp only [List.foldl_cons]
        refine ih (setRate ex r) a b (fun q hq => hk q (List.mem_cons_of_mem r hq)) ?_
        simp only [getRate, setRate]
        rw [mapGet_mapInsert_ne _ _ _
          (Ne.symm (hk r (List.mem_cons_self r rest)))]
        simpa [getRate] using hbase
    intro rs a b hk
    exact step rs exchangeNew a b hk rfl
  · intro ex r ha hb hab
    exact mapGet_mapInsert_ne _ _ _ (generateKey_swap_ne r.fromCur r.toCur ha hb hab) _

/-- Witness for C7 at USD/EUR: set then get returns the rate, the reversed
pair is unaffected, and an untouched pair queries to `none`. -/
theorem exchange_set_get_spec_witness :
    getRate (setRate exchangeNew ⟨usd, eur, 3 / 2⟩) usd eur = some ⟨usd, eur, 3 / 2⟩
    ∧ getRate (List.foldl setRate exchangeNew [⟨usd, eur, 3 / 2⟩]) eur usd = none
    ∧ getRate (setRate exchangeNew ⟨usd, eur, 3 / 2⟩) eur usd
        = getRate exchangeNew eur usd :=
  ⟨exchange_set_get_spec.1 exchangeNew ⟨usd, eur, 3 / 2⟩,
   exchange_set_get_spec.2.1 [⟨usd, eur, 3 / 2⟩] eur usd (by decide),
   exchange_set_get_spec.2.2 exchangeNew ⟨usd, eur, 3 / 2⟩ (by decide) (by decide)
     (by decide)⟩

theorem foldl_add_eq_sum (l : List ℚ) : ∀ c : ℚ, l.foldl (· + ·) c = c + l.sum := by
  induction l with
  | nil => intro c; simp
  | cons a t ih => intro c; simp only [List.foldl_cons, List.sum_cons, ih]; ring

theorem sharesLoop_currency (m : Money) (t : Decimal) :
    ∀ (rs : List Decimal) (xs : List Money), sharesLoop m t rs = .ok xs →
      ∀ x ∈ xs, x.currency = m.currency := by
  intro rs
  induction rs with
  | nil =>
    intro xs h x hx
    simp only [sharesLoop] at h
    cases h
    simp at hx
  | cons r rest ih =>
    intro xs h x hx
    by_cases h1 : r ≤ 0
    · simp [sharesLoop, h1] at h
    · by_cases h2 : t = 0
      · simp [sharesLoop, h1, h2] at h
      · simp only [sharesLoop, if_neg h1, if_neg h2] at h
        cases hrec : sharesLoop m t rest with
        | error e => rw [hrec] at h; simp at h
        | ok ys =>
          rw [hrec] at h
          simp only [Except.ok.injEq] at h
          subst h
          rcases List.mem_cons.mp hx with rfl | hmem
          · rfl
          · exact ih ys hrec x hmem

theorem sharesLoop_nonpos_not_ok (m : Money) (t : Decimal) :
    ∀ (rs : List Decimal), (∃ r ∈ rs, r ≤ 0) →
      ∀ xs, sharesLoop m t rs ≠ .ok xs := by
  intro rs
  induction rs with
  | nil => rintro ⟨r, hr, -⟩; simp at hr
  | cons a rest ih =>
    rintro ⟨r, hr, hrle⟩ xs h
    by_cases h1 : a ≤ 0
    · simp [sharesLoop, h1] at h
    · by_cases h2 : t = 0
      · simp [sharesLoop, h1, h2] at h
      · simp only [sharesLoop, if_neg h1, if_neg h2] at h
        cases hrec : sharesLoop m t rest with
        | error e => rw [hrec] at h; simp at h
        | ok ys =>
          rcases List.mem_cons.mp hr with rfl | hmem
          · exact h1 hrle
          · exact ih ⟨r, hmem, hrle⟩ ys hrec

theorem distribute_sum_currency :
    ∀ (xs : List Money) (n : Nat) (ys : List Money), distribute xs n = some ys →
      (ys.map Money.amount).sum = (xs.map Money.amount).sum + n
      ∧ ys.map Money.currency = xs.map Money.currency := by
  intro xs
  induction xs with
  | nil =>
    intro n ys h
    cases n with
    | zero => simp only [distribute, Option.some.injEq] at h; subst h; simp
    | succ k => simp [distribute] at h
  | cons x rest ih =>
    intro n ys h
    cases n with
    | zero => simp only [distribute, Option.some.injEq] at h; subst h; simp
    | succ k =>
      simp only [distribute] at h
      cases hrec : distribute rest k with
      | none => rw [hrec] at h; simp at h
      | some zs =>
        rw [hrec] at h
        simp only [Option.some.injEq] at h
        subst h
        obtain ⟨hs, hc⟩ := ih k zs hrec
        refine ⟨?_, by simp [hc]⟩
        simp only [List.map_cons, List.sum_cons, hs]
        push_cast
        ring

theorem distribute_const_amount (q : ℚ) :
    ∀ (xs : List Money) (n : Nat) (ys : List Money),
      (∀ x ∈ xs, x.amount = q) → distribute xs n = some ys →
      ∀ y ∈ ys, y.amount = q ∨ y.amount = q + 1 := by
  intro xs
  induction xs with
  | nil =>
    intro n ys hq h y hy
    cases n with
    | zero => simp only [distribute, Option.some.injEq] at h; subst h; simp at hy
    | succ k => simp [distribute] at h
  | cons x rest ih =>
    intro n ys hq h y hy
    cases n with
    | zero =>
      simp only [distribute, Option.some.injEq] at h
      subst h
      exact Or.inl (hq y hy)
    | succ k =>
      simp only [distribute] at h
      cases hrec : distribute rest k with
      | none => rw [hrec] at h; simp at h
      | some zs =>
        rw [hrec] at h
        simp only [Option.some.injEq] at h
        subst h
        rcases List.mem_cons.mp hy with rfl | hmem
        · exact Or.inr (by simp [hq x (List.mem_cons_self x rest)])
        · exact ih k zs (fun z hz => hq z (List.mem_cons_of_mem x hz)) hrec y hmem

theorem allocate_ok_structure (m : Money) (ratios : List Int) (shares : List Money)
    (h : allocate m ratios = .ok shares) :
    ∃ (base : List Money) (n : Nat),
      sharesLoop m ((ratios.map (fun x : ℤ => (x : ℚ))).foldl (· + ·) 0)
        (ratios.map (fun x : ℤ => (x : ℚ))) = .ok base
      ∧ distribute base n = some shares
      ∧ (n : ℚ) = m.amount - (base.map Money.amount).sum := by
  by_cases he : ratios.isEmpty
  · simp [allocate, he] at h
  · simp only [allocate, if_neg he] at h
    split at h
    next => exact absurd h (by simp)
    next => exact absurd h (by simp)
    next base heq =>
      split at h
      next => exact absurd h (by simp)
      next hneg =>
        split at h
        next => exact absurd h (by simp)
        next hint =>
          split at h
          next final hdist =>
            simp only [AllocResult.ok.injEq] at h
            subst h
            set rem := m.amount - (base.map Money.amount).foldl (· + ·) 0 with hrem
            have hfl : (Rat.floor rem : ℚ) = rem := by
              have := not_not.mp (by simpa using hint)
              have h0 : rem - decimalFloor rem = 0 := this
              have := sub_eq_zero.mp h0
              simpa [decimalFloor] using this.symm
            have h0le : (0 : ℤ) ≤ Rat.floor rem := by
              have hnn : (0 : ℚ) ≤ rem := le_of_not_lt hneg
              have : (0 : ℚ) ≤ (Rat.floor rem : ℚ) := by rw [hfl]; exact hnn
              exact_mod_cast this
            refine ⟨base, (Rat.floor rem).toNat, heq, hdist, ?_⟩
            have hcast : ((Rat.floor rem).toNat : ℚ) = (Rat.floor rem : ℚ) := by
              have := Int.toNat_of_nonneg h0le
              exact_mod_cast congrArg (fun z : ℤ => (z : ℚ)) this
            rw [hcast, hfl, hrem, foldl_add_eq_sum, zero_add]
          next hdist => exact absurd h (by simp)

/-- C1: whenever allocate returns shares (no error and no abort), the sum of
the returned shares' amounts equals the original amount exactly, and every
returned share carries the original currency. -/
theorem allocate_conserves (m : Money) (ratios : List Int) (shares : List Money)
    (h : allocate m ratios = .ok shares) :
    (shares.map Money.amount).sum = m.amount
    ∧ ∀ s ∈ shares, s.currency = m.currency := by
  obtain ⟨base, n, hloop, hdist, hn⟩ := allocate_ok_structure m ratios shares h
  obtain ⟨hsum, hcur⟩ := distribute_sum_currency base n shares hdist
  constructor
  · rw [hsum, hn]; ring
  · intro s hs
    have hbase : ∀ x ∈ base, x.currency = m.currency :=
      sharesLoop_currency m _ _ base hloop
    have : s.currency ∈ shares.map Money.currency := List.mem_map_of_mem _ hs
    rw [hcur] at this
    obtain ⟨x, hx, hxc⟩ := List.mem_map.mp this
    rw [← hxc]
    exact hbase x hx

/-- Witness for C1: 11 USD allocated at ratios [1, 1, 1] yields shares
[4, 4, 3] summing to 11, all in USD. -/
theorem allocate_conserves_witness :
    (([fromDecimal 4 usd, fromDecimal 4 usd, fromDecimal 3 usd].map
        Money.amount).sum = (fromDecimal 11 usd).amount)
    ∧ ∀ s ∈ [fromDecimal 4 usd, fromDecimal 4 usd, fromDecimal 3 usd],
        s.currency = (fromDecimal 11 usd).currency :=
  allocate_conserves (fromDecimal 11 usd) [1, 1, 1]
    [fromDecimal 4 usd, fromDecimal 4 usd, fromDecimal 3 usd]
    (by with_unfolding_all decide)

/-- Counterexample for C3: on ratios [1, -1] (which contain a non-positive
ratio) allocate aborts — the ratio total is zero and the first ratio is
positive, so the share computation divides by zero — instead of returning
the recoverable error `InvalidRatio`. -/
theorem allocate_nonpositive_ratio_cex :
    allocate (fromDecimal 100 usd) [1, -1] = .aborted
    ∧ allocate (fromDecimal 100 usd) [1, -1] ≠ .err .invalidRatio := by
  refine ⟨by with_unfolding_all decide, ?_⟩
  with_unfolding_all decide

/-- C3 amended: allocate on an empty ratio sequence returns `InvalidRatio`;
allocate on a sequence containing a non-positive ratio never returns shares:
it returns `InvalidRatio` or aborts (the abort occurs when the ratio total
is zero while a positive ratio is reached first, via division by zero). -/
theorem allocate_nonpositive_ratio_amended (m : Money) (ratios : List Int) :
    allocate m [] = .err .invalidRatio
    ∧ ((∃ r ∈ ratios, r ≤ 0) →
        allocate m ratios = .err .invalidRatio ∨ allocate m ratios = .aborted) := by
  refine ⟨rfl, ?_⟩
  rintro ⟨r, hmem, hle⟩
  by_cases he : ratios.isEmpty
  · left
    simp [allocate, he]
  · have hq : ∃ q ∈ ratios.map (fun x : ℤ => (x : ℚ)), q ≤ 0 :=
      ⟨(r : ℚ), List.mem_map_of_mem _ hmem, by exact_mod_cast hle⟩
    have hne0 : ratios ≠ [] := fun hnil => he (by simp [hnil])
    cases hloop : sharesLoop m ((ratios.map (fun x : ℤ => (x : ℚ))).foldl (· + ·) 0)
        (ratios.map (fun x : ℤ => (x : ℚ))) with
    | error e =>
      cases e with
      | ratioNonPos => left; simp [allocate, if_neg he, hloop, hne0]
      | divByZero => right; simp [allocate, if_neg he, hloop, hne0]
    | ok base => exact absurd hloop (sharesLoop_nonpos_not_ok m _ _ hq base)

/-- Witness for C3 amended: allocate on [1, 0] (the src test input) does
not return shares. -/
theorem allocate_nonpositive_ratio_amended_witness :
    allocate (fromDecimal 1 usd) [1, 0] = .err .invalidRatio
    ∨ allocate (fromDecimal 1 usd) [1, 0] = .aborted :=
  (allocate_nonpositive_ratio_amended (fromDecimal 1 usd) [1, 0]).2
    ⟨0, by decide, by decide⟩

theorem sharesLoop_replicate (m : Money) (t : Decimal) (ht : ¬ t = 0) :
    ∀ j : Nat, sharesLoop m t (List.replicate j 1) =
      .ok (List.replicate j
        (fromDecimal (decimalFloor (m.amount * 1 / t)) m.currency)) := by
  intro j
  induction j with
  | zero => simp [sharesLoop]
  | succ k ih =>
    rw [List.replicate_succ, List.replicate_succ]
    simp only [sharesLoop]
    rw [if_neg (by norm_num : ¬ (1 : ℚ) ≤ 0), if_neg ht, ih]

/-- Counterexample for C9: 100 USD allocated at the valid ratio sequence
[1, 9] returns shares of 10 and 90, which differ by 80, far more than one
remainder-distribution unit. -/
theorem allocate_uneven_shares_cex :
    allocate (fromDecimal 100 usd) [1, 9]
      = .ok [fromDecimal 10 usd, fromDecimal 90 usd]
    ∧ ¬ |(fromDecimal 10 usd).amount - (fromDecimal 90 usd).amount| ≤ 1 := by
  refine ⟨by with_unfolding_all decide, ?_⟩
  norm_num [fromDecimal, abs_le]

/-- C9 amended: for equal-ratio allocations (`allocate_to`, which allocates
with `number` ratios of 1), any two returned shares differ by at most one
remainder-distribution unit (Decimal 1). -/
theorem allocate_to_shares_even (m : Money) (number : Int) (shares : List Money)
    (h : allocateTo m number = .ok shares) :
    ∀ s1 ∈ shares, ∀ s2 ∈ shares, |s1.amount - s2.amount| ≤ 1 := by
  unfold allocateTo at h
  obtain ⟨base, n, hloop, hdist, -⟩ := allocate_ok_structure _ _ _ h
  have hpos : number.toNat ≠ 0 := by
    intro h0
    rw [h0] at h
    simp [allocate] at h
  obtain ⟨k, hk⟩ := Nat.exists_eq_succ_of_ne_zero hpos
  rw [hk] at hloop
  have hmap : (List.replicate (k + 1) (1 : ℤ)).map (fun x : ℤ => (x : ℚ))
      = List.replicate (k + 1) (1 : ℚ) := by simp
  rw [hmap] at hloop
  have htot : (List.replicate (k + 1) (1 : ℚ)).foldl (· + ·) 0
      = ((k + 1 : ℕ) : ℚ) := by
    rw [foldl_add_eq_sum, zero_add, List.sum_replicate, nsmul_eq_mul, mul_one]
  rw [htot] at hloop
  have hne : ¬ ((k + 1 : ℕ) : ℚ) = 0 := by positivity
  rw [sharesLoop_replicate m _ hne (k + 1)] at hloop
  simp only [Except.ok.injEq] at hloop
  have hbase : ∀ x ∈ base,
      x.amount = decimalFloor (m.amount * 1 / ((k + 1 : ℕ) : ℚ)) := by
    intro x hx
    rw [← hloop] at hx
    rw [List.eq_of_mem_replicate hx]
    rfl
  have hmem := distribute_const_amount _ base n shares hbase hdist
  intro s1 hs1 s2 hs2
  rcases hmem s1 hs1 with h1 | h1 <;> rcases hmem s2 hs2 with h2 | h2 <;>
    rw [h1, h2, abs_le] <;> constructor <;> linarith

/-- Witness for C9 amended: allocate_to 3 on 11 USD yields shares 4, 4, 3;
the extreme shares differ by exactly one unit. -/
theorem allocate_to_shares_even_witness :
    |(fromDecimal 4 usd).amount - (fromDecimal 3 usd).amount| ≤ 1 :=
  allocate_to_shares_even (fromDecimal 11 usd) 3
    [fromDecimal 4 usd, fromDecimal 4 usd, fromDecimal 3 usd]
    (by with_unfolding_all decide)
    (fromDecimal 4 usd) (by simp)
    (fromDecimal 3 usd) (by simp)

/-- C4 (code bug exhibited): on the input "abc" with an EnUs-locale currency,
steps 1-6 of `from_str` succeed — the split yields a single part, the single
group passes the grouping check, and no fraction part is present — yet the
final `Decimal::from_str("abc.00").unwrap()` fails and aborts, because the
integer part's digits are never validated. -/
theorem from_str_final_parse_aborts :
    fromStr ['a', 'b', 'c'] gbp = .aborted := by
  with_unfolding_all decide

/-- C5 (code bug exhibited): `from_str` validates the fractional part with
`i32::from_str`, so the 11-digit fraction of "1.11111111111" (the input of
the src test `money_from_string_parses_cryptocurrency`, which expects a
successful parse) overflows the 32-bit range and the parse fails with
`InvalidAmount` instead of succeeding. -/
theorem from_str_long_fraction_rejected :
    fromStr ("1.11111111111".toList) eth = .err .invalidAmount := by
  with_unfolding_all decide

end RustyMoney
